import Mathlib

/-!
Verification of the `nln` trailing-newline trimmer.

The core of the repository is `snickerdoodle` (src/src/lib.rs): a loop that
pulls chunks from a `BufRead` source, writes everything up to the last
non-newline byte of each chunk to a `Write` sink, and keeps the trailing
newline-class bytes of the chunk in a pending buffer `nlbuf` that is flushed
only when later non-newline content proves it is not trailing.

Two models of the same loop are developed here, both transcribed from the
source:

* a pure state model (`St`, `stepChunk`, `runChunks`) capturing the state at
  every loop-iteration boundary on the success path, and
* an effectful trace model (`runLoop`, `snickerdoodleRun`) in which every
  `fill_buf`, `write_all`, `consume` and `flush` call is an event, the source
  may return an error, and each `write_all` / `flush` call may fail
  (oracles `ws`, `fr`); this model settles the error-propagation, flush and
  consume-discipline claims.

The specification-side functions `trim`, `nlSuffix` and `longestNlRun` are
written from the spec's words (trim(s) = s with its maximal newline-class
suffix removed; the longest contiguous newline-class run).
-/

namespace Nln

/-- A byte, as handled by the Rust code, modelled as a natural number
(the newline-class test only distinguishes 10 and 13). -/
abbrev Byte := Nat

/-- Transcription of `is_newline` (src/src/lib.rs line 46):
`b == b'\r' || b == b'\n'`. -/
def is_newline (b : Byte) : Bool := b == 13 || b == 10

/-- Transcription of Rust's `Iterator::rposition`: the index of the LAST
element satisfying `p`, or `none` when no element does. -/
def rposition (p : Byte → Bool) : List Byte → Option Nat
  | [] => none
  | a :: as =>
    match rposition p as with
    | some i => some (i + 1)
    | none => if p a then some 0 else none

/-! ## Pure state model: the loop state at iteration boundaries -/

/-- The mutable state of the `snickerdoodle` loop: the pending newline buffer
`nlbuf` and the bytes `out` written to the sink so far. -/
structure St where
  nlbuf : List Byte
  out : List Byte
deriving DecidableEq, Repr

/-- One iteration of the loop body of `snickerdoodle` on a chunk `buf`
(the body from `let n = buf.len()` through `i.consume(n)`):
if the chunk is all newline-class it is appended to `nlbuf`;
otherwise `nlbuf` and the chunk through its last non-newline byte
(`buf[..=p]`) are written and `nlbuf` is replaced by `buf[p+1..]`. -/
def stepChunk (st : St) (buf : List Byte) : St :=
  match rposition (fun b => !is_newline b) buf with
  | none => ⟨st.nlbuf ++ buf, st.out⟩
  | some p => ⟨buf.drop (p + 1), st.out ++ st.nlbuf ++ buf.take (p + 1)⟩

/-- The `loop` of `snickerdoodle` over a list of successive `fill_buf`
results, stopping at the first empty chunk (EOF). -/
def runChunks (st : St) : List (List Byte) → St
  | [] => st
  | buf :: rest => if buf.isEmpty then st else runChunks (stepChunk st buf) rest

/-- The bytes `snickerdoodle` writes to the sink when the source delivers
`chunks` and all I/O succeeds. -/
def snickOut (chunks : List (List Byte)) : List Byte :=
  (runChunks ⟨[], []⟩ chunks).out

/-- The loop state after the first `k` iterations. -/
def stateAfter (chunks : List (List Byte)) (k : Nat) : St :=
  runChunks ⟨[], []⟩ (chunks.take k)

/-! ## Specification-side functions (from the spec's words) -/

/-- trim(s): `s` with its maximal newline-class-byte suffix removed
(spec §8, newline-class = {0x0A, 0x0D}). -/
def trim (s : List Byte) : List Byte := (s.reverse.dropWhile is_newline).reverse

/-- The maximal newline-class suffix of `s` (the "trailing run" of the
spec's glossary), so that `trim s ++ nlSuffix s = s`. -/
def nlSuffix (s : List Byte) : List Byte := (s.reverse.takeWhile is_newline).reverse

/-- The length of the longest contiguous run of newline-class bytes in `s`
(spec §3): the maximum over all suffixes of the length of the suffix's
newline-class prefix. -/
def longestNlRun : List Byte → Nat
  | [] => 0
  | b :: rest => max ((b :: rest).takeWhile is_newline).length (longestNlRun rest)

/-- The invariant tying the loop state to the bytes `u` consumed so far:
the sink holds `trim u` and the pending buffer the trailing newline run. -/
def Inv (u : List Byte) (st : St) : Prop :=
  st.out = trim u ∧ st.nlbuf = nlSuffix u

/-! ## Effectful trace model: every I/O call is an event -/

/-- One I/O interaction of `snickerdoodle`: a `fill_buf` call returning a
chunk or an error, a `consume(n)` call, a `write_all` call that succeeds
with its bytes or fails, and the final `flush`. -/
inductive Ev (E : Type) where
  | readOk (chunk : List Byte)
  | readErr (e : E)
  | consume (n : Nat)
  | writeOk (bytes : List Byte)
  | writeErr (bytes : List Byte) (e : E)
  | flushOk
  | flushErr (e : E)
deriving DecidableEq, Repr

/-- The result of the next `write_all` call under the write oracle `ws`
(one entry per call; an exhausted oracle means success). -/
def wres {E : Type} (ws : List (Option E)) : Option E × List (Option E) :=
  match ws with
  | [] => (none, [])
  | w :: rest => (w, rest)

/-- Transcription of the `loop` of `snickerdoodle` against a fallible source
and sink: `reads` lists the successive `fill_buf` results (an exhausted list
means EOF, i.e. an empty chunk), `ws` is the write oracle, `nlbuf` the
pending newline buffer.  Returns the event trace of the loop and its
outcome; the loop aborts at the first failing call, as `?` does. -/
def runLoop {E : Type} : List (Except E (List Byte)) → List (Option E) → List Byte →
    List (Ev E) × Except E Unit
  | [], _, _ => ([Ev.readOk []], Except.ok ())
  | Except.error e :: _, _, _ => ([Ev.readErr e], Except.error e)
  | Except.ok buf :: rest, ws, nlbuf =>
    if buf.isEmpty then ([Ev.readOk buf], Except.ok ())
    else
      match rposition (fun b => !is_newline b) buf with
      | none =>
        let r := runLoop rest ws (nlbuf ++ buf)
        (Ev.readOk buf :: Ev.consume buf.length :: r.1, r.2)
      | some p =>
        match wres ws with
        | (some e, _) => ([Ev.readOk buf, Ev.writeErr nlbuf e], Except.error e)
        | (none, ws1) =>
          match wres ws1 with
          | (some e, _) =>
            ([Ev.readOk buf, Ev.writeOk nlbuf, Ev.writeErr (buf.take (p + 1)) e],
              Except.error e)
          | (none, ws2) =>
            let r := runLoop rest ws2 (buf.drop (p + 1))
            (Ev.readOk buf :: Ev.writeOk nlbuf :: Ev.writeOk (buf.take (p + 1)) ::
              Ev.consume buf.length :: r.1, r.2)

/-- Transcription of `snickerdoodle` itself: run the loop, then `o.flush()`
(oracle `fr`), returning the full event trace and the `Result`. -/
def snickerdoodleRun {E : Type} (reads : List (Except E (List Byte)))
    (ws : List (Option E)) (fr : Option E) : List (Ev E) × Except E Unit :=
  match runLoop reads ws [] with
  | (tr, Except.error e) => (tr, Except.error e)
  | (tr, Except.ok _) =>
    match fr with
    | none => (tr ++ [Ev.flushOk], Except.ok ())
    | some e => (tr ++ [Ev.flushErr e], Except.error e)

/-- The bytes a trace has successfully written to the sink. -/
def trOut {E : Type} : List (Ev E) → List Byte
  | [] => []
  | Ev.writeOk bs :: rest => bs ++ trOut rest
  | _ :: rest => trOut rest

/-- The error carried by an event, when it is a failing call. -/
def errOf {E : Type} : Ev E → Option E
  | Ev.readErr e => some e
  | Ev.writeErr _ e => some e
  | Ev.flushErr e => some e
  | _ => none

/-- Whether an event is a `flush` call (successful or not). -/
def isFlush {E : Type} : Ev E → Bool
  | Ev.flushOk => true
  | Ev.flushErr _ => true
  | _ => false

/-- The bytes the source delivers before it signals EOF or fails. -/
def delivered {E : Type} : List (Except E (List Byte)) → List Byte
  | [] => []
  | Except.ok c :: rest => if c.isEmpty then [] else c ++ delivered rest
  | Except.error _ :: _ => []

/-- Checks that in a trace every successful read of a non-empty chunk is
followed by `consume` of the chunk's full length before any further read
occurs.  The `Option Nat` state is the length of the chunk awaiting its
`consume`. -/
def consumeDiscipline {E : Type} : Option Nat → List (Ev E) → Bool
  | none, [] => true
  | none, Ev.readOk buf :: rest =>
    if buf.isEmpty then consumeDiscipline none rest
    else consumeDiscipline (some buf.length) rest
  | none, _ :: rest => consumeDiscipline none rest
  | some _, [] => true
  | some n, Ev.consume m :: rest => m == n && consumeDiscipline none rest
  | some _, Ev.readOk _ :: _ => false
  | some _, Ev.readErr _ :: _ => false
  | some n, _ :: rest => consumeDiscipline (some n) rest

/-! ## Lemmas about `rposition` -/

theorem rposition_none {p : Byte → Bool} :
    ∀ {l : List Byte}, rposition p l = none → ∀ a ∈ l, p a = false := by
  intro l
  induction l with
  | nil => intro _ a ha; cases ha
  | cons c cs ih =>
    intro h x hx
    unfold rposition at h
    cases hr : rposition p cs with
    | some j => rw [hr] at h; cases h
    | none =>
      rw [hr] at h
      by_cases hp : p c
      · simp [hp] at h
      · rcases List.mem_cons.mp hx with rfl | hmem
        · simpa using hp
        · exact ih hr x hmem

theorem rposition_some {p : Byte → Bool} :
    ∀ {l : List Byte} {i : Nat}, rposition p l = some i →
      ∃ h : i < l.length, p (l.get ⟨i, h⟩) = true ∧ ∀ a ∈ l.drop (i + 1), p a = false := by
  intro l
  induction l with
  | nil => intro i h; cases h
  | cons c cs ih =>
    intro i h
    unfold rposition at h
    cases hr : rposition p cs with
    | some j =>
      rw [hr] at h
      obtain ⟨hj, hg, hall⟩ := ih hr
      cases h
      exact ⟨Nat.succ_lt_succ hj, hg, hall⟩
    | none =>
      rw [hr] at h
      by_cases hp : p c
      · rw [if_pos hp] at h
        cases h
        exact ⟨Nat.succ_pos _, hp, fun a ha => rposition_none hr a ha⟩
      · simp [hp] at h

/-! ## Lemmas about `trim` and `nlSuffix` -/

theorem trim_eq_rdropWhile (s : List Byte) : trim s = s.rdropWhile is_newline := rfl

theorem nlSuffix_eq_rtakeWhile (s : List Byte) : nlSuffix s = s.rtakeWhile is_newline := rfl

theorem trim_append_nlSuffix (s : List Byte) : trim s ++ nlSuffix s = s := by
  unfold trim nlSuffix
  rw [← List.reverse_append, List.takeWhile_append_dropWhile, List.reverse_reverse]

theorem nlSuffix_all {s : List Byte} : ∀ b ∈ nlSuffix s, is_newline b = true := by
  intro b hb
  rw [nlSuffix_eq_rtakeWhile] at hb
  exact List.mem_rtakeWhile_imp hb

theorem trim_getLast_not {s : List Byte} {b : Byte} (h : (trim s).getLast? = some b) :
    is_newline b = false := by
  unfold trim at h
  rw [List.getLast?_reverse] at h
  have hd := List.head?_dropWhile_not is_newline s.reverse
  rw [h] at hd
  exact hd

theorem trim_append_all {u r : List Byte} (h : ∀ b ∈ r, is_newline b = true) :
    trim (u ++ r) = trim u := by
  unfold trim
  rw [List.reverse_append, List.dropWhile_append_of_pos]
  intro a ha
  exact h a (List.mem_reverse.mp ha)

theorem nlSuffix_append_all {u r : List Byte} (h : ∀ b ∈ r, is_newline b = true) :
    nlSuffix (u ++ r) = nlSuffix u ++ r := by
  unfold nlSuffix
  rw [List.reverse_append, List.takeWhile_append_of_pos, List.reverse_append,
    List.reverse_reverse]
  intro a ha
  exact h a (List.mem_reverse.mp ha)

theorem trim_concat_not {u : List Byte} {b : Byte} (h : is_newline b = false) :
    trim (u ++ [b]) = u ++ [b] := by
  rw [trim_eq_rdropWhile]
  exact List.rdropWhile_concat_neg is_newline u b (by simp [h])

theorem nlSuffix_concat_not {u : List Byte} {b : Byte} (h : is_newline b = false) :
    nlSuffix (u ++ [b]) = [] := by
  rw [nlSuffix_eq_rtakeWhile]
  exact List.rtakeWhile_concat_neg is_newline u b (by simp [h])

/-! ## The effect of one chunk on `trim` and `nlSuffix` of the consumed bytes -/

theorem step_facts_none {u buf : List Byte}
    (h : rposition (fun b => !is_newline b) buf = none) :
    trim (u ++ buf) = trim u ∧ nlSuffix (u ++ buf) = nlSuffix u ++ buf := by
  have hall : ∀ b ∈ buf, is_newline b = true := by
    intro b hb
    have hb2 := rposition_none h b hb
    simpa using hb2
  exact ⟨trim_append_all hall, nlSuffix_append_all hall⟩

theorem step_facts_some {u buf : List Byte} {p : Nat}
    (h : rposition (fun b => !is_newline b) buf = some p) :
    trim (u ++ buf) = u ++ buf.take (p + 1) ∧ nlSuffix (u ++ buf) = buf.drop (p + 1) := by
  obtain ⟨hlt, hg, hall⟩ := rposition_some h
  have hb : is_newline (buf.get ⟨p, hlt⟩) = false := by simpa using hg
  have hdropall : ∀ a ∈ buf.drop (p + 1), is_newline a = true := by
    intro a ha
    have ha2 := hall a ha
    simpa using ha2
  have htake : buf.take (p + 1) = buf.take p ++ [buf.get ⟨p, hlt⟩] := by
    rw [List.take_succ]
    simp [List.getElem?_eq_getElem hlt, List.get_eq_getElem]
  constructor
  · calc trim (u ++ buf)
        = trim ((u ++ buf.take (p + 1)) ++ buf.drop (p + 1)) := by
          rw [List.append_assoc, List.take_append_drop]
      _ = trim (u ++ buf.take (p + 1)) := trim_append_all hdropall
      _ = u ++ buf.take (p + 1) := by
          rw [htake, ← List.append_assoc]
          exact trim_concat_not hb
  · calc nlSuffix (u ++ buf)
        = nlSuffix ((u ++ buf.take (p + 1)) ++ buf.drop (p + 1)) := by
          rw [List.append_assoc, List.take_append_drop]
      _ = nlSuffix (u ++ buf.take (p + 1)) ++ buf.drop (p + 1) :=
          nlSuffix_append_all hdropall
      _ = buf.drop (p + 1) := by
          rw [htake, ← List.append_assoc, nlSuffix_concat_not hb]
          simp

/-! ## The loop invariant of the pure model -/

theorem inv_init : Inv [] ⟨[], []⟩ := by
  constructor <;> simp [trim, nlSuffix]

theorem inv_step {u : List Byte} {st : St} (h : Inv u st) (buf : List Byte) :
    Inv (u ++ buf) (stepChunk st buf) := by
  obtain ⟨ho, hn⟩ := h
  unfold stepChunk
  cases hr : rposition (fun b => !is_newline b) buf with
  | none =>
    obtain ⟨ht, hs⟩ := step_facts_none (u := u) hr
    exact ⟨by rw [ho, ht], by rw [hn, hs]⟩
  | some p =>
    obtain ⟨ht, hs⟩ := step_facts_some (u := u) hr
    constructor
    · show st.out ++ st.nlbuf ++ buf.take (p + 1) = trim (u ++ buf)
      rw [ho, hn, ht, trim_append_nlSuffix]
    · show buf.drop (p + 1) = nlSuffix (u ++ buf)
      rw [hs]

theorem inv_runChunks :
    ∀ (chunks : List (List Byte)) (u : List Byte) (st : St), Inv u st →
      (∀ c ∈ chunks, c ≠ []) → Inv (u ++ chunks.flatten) (runChunks st chunks) := by
  intro chunks
  induction chunks with
  | nil =>
    intro u st h _
    simpa [runChunks] using h
  | cons buf rest ih =>
    intro u st h hne
    have hbuf : buf ≠ [] := hne buf (List.mem_cons_self _ _)
    show Inv _ (if buf.isEmpty then st else runChunks (stepChunk st buf) rest)
    rw [if_neg (by simpa using hbuf)]
    have h2 := inv_step h buf
    have h3 := ih (u ++ buf) (stepChunk st buf) h2
      (fun c hc => hne c (List.mem_cons_of_mem _ hc))
    simpa [List.append_assoc] using h3

theorem snickOut_eq_trim {chunks : List (List Byte)} (h : ∀ c ∈ chunks, c ≠ []) :
    snickOut chunks = trim chunks.flatten := by
  have h2 := inv_runChunks chunks [] ⟨[], []⟩ inv_init h
  simpa [snickOut] using h2.1

theorem stateAfter_inv {chunks : List (List Byte)} (k : Nat) (h : ∀ c ∈ chunks, c ≠ []) :
    Inv (chunks.take k).flatten (stateAfter chunks k) := by
  have h2 := inv_runChunks (chunks.take k) [] ⟨[], []⟩ inv_init
    (fun c hc => h c (List.mem_of_mem_take hc))
  simpa [stateAfter] using h2

/-! ## Bounding the pending buffer by the longest newline run -/

theorem all_nl_prefix_le_takeWhile :
    ∀ {s r : List Byte}, r <+: s → (∀ b ∈ r, is_newline b = true) →
      r.length ≤ (s.takeWhile is_newline).length := by
  intro s
  induction s with
  | nil =>
    intro r hr _
    rw [List.prefix_nil.mp hr]
    exact Nat.le_refl _
  | cons c cs ih =>
    intro r hr hall
    cases r with
    | nil => simp
    | cons a as =>
      obtain ⟨rfl, has⟩ := List.cons_prefix_cons.mp hr
      have hc : is_newline a = true := hall a (List.mem_cons_self _ _)
      rw [List.takeWhile_cons_of_pos hc]
      simp only [List.length_cons]
      exact Nat.succ_le_succ (ih has (fun b hb => hall b (List.mem_cons_of_mem _ hb)))

theorem all_nl_infix_le_longest :
    ∀ {s r : List Byte}, r <:+: s → (∀ b ∈ r, is_newline b = true) →
      r.length ≤ longestNlRun s := by
  intro s
  induction s with
  | nil =>
    intro r hr _
    rw [List.infix_nil.mp hr]
    exact Nat.le_refl _
  | cons c cs ih =>
    intro r hr hall
    have hmax : longestNlRun (c :: cs) =
        max ((c :: cs).takeWhile is_newline).length (longestNlRun cs) := rfl
    rcases List.infix_cons_iff.mp hr with hpre | hinf
    · rw [hmax]
      exact le_trans (all_nl_prefix_le_takeWhile hpre hall) (le_max_left _ _)
    · rw [hmax]
      exact le_trans (ih hinf hall) (le_max_right _ _)

theorem nlbuf_le_longest {chunks : List (List Byte)} (k : Nat)
    (h : ∀ c ∈ chunks, c ≠ []) :
    (stateAfter chunks k).nlbuf.length ≤ longestNlRun chunks.flatten := by
  have hinv := stateAfter_inv k h
  rw [hinv.2]
  have hsuf : nlSuffix (chunks.take k).flatten <:+ (chunks.take k).flatten := by
    rw [nlSuffix_eq_rtakeWhile]
    exact List.rtakeWhile_suffix _ _
  have hpre : (chunks.take k).flatten <+: chunks.flatten := by
    refine ⟨(chunks.drop k).flatten, ?_⟩
    rw [← List.flatten_append, List.take_append_drop]
  obtain ⟨t1, ht1⟩ := hsuf
  obtain ⟨t2, ht2⟩ := hpre
  have hinf : nlSuffix (chunks.take k).flatten <:+: chunks.flatten :=
    ⟨t1, t2, by rw [ht1, ht2]⟩
  exact all_nl_infix_le_longest hinf nlSuffix_all

/-! ## Monotonicity of `trim` along prefixes -/

theorem dropWhile_suffix_append (p : Byte → Bool) :
    ∀ (l1 l2 : List Byte), l2.dropWhile p <:+ (l1 ++ l2).dropWhile p := by
  intro l1
  induction l1 with
  | nil => intro l2; exact List.suffix_refl _
  | cons a l1 ih =>
    intro l2
    rw [List.cons_append, List.dropWhile_cons]
    by_cases hp : p a
    · rw [if_pos hp]
      exact ih l2
    · rw [if_neg hp]
      exact (List.dropWhile_suffix p).trans ⟨a :: l1, rfl⟩

theorem trim_mono {u s : List Byte} (h : u <+: s) : trim u <+: trim s := by
  obtain ⟨v, rfl⟩ := h
  unfold trim
  rw [List.reverse_append]
  obtain ⟨t, ht⟩ := dropWhile_suffix_append is_newline v.reverse u.reverse
  exact ⟨t.reverse, by rw [← List.reverse_append, ht]⟩

/-! ## The sink output only accumulates -/

theorem runChunks_accum :
    ∀ (chunks : List (List Byte)) (nl o : List Byte),
      (runChunks ⟨nl, o⟩ chunks).out = o ++ (runChunks ⟨nl, []⟩ chunks).out ∧
      (runChunks ⟨nl, o⟩ chunks).nlbuf = (runChunks ⟨nl, []⟩ chunks).nlbuf := by
  intro chunks
  induction chunks with
  | nil => intro nl o; exact ⟨(List.append_nil o).symm, rfl⟩
  | cons buf rest ih =>
    intro nl o
    by_cases hb : buf.isEmpty
    · simp [runChunks, hb]
    · simp only [runChunks, if_neg hb]
      unfold stepChunk
      cases hr : rposition (fun b => !is_newline b) buf with
      | none => exact ih (nl ++ buf) o
      | some p =>
        obtain ⟨h1, h2⟩ := ih (buf.drop (p + 1)) (o ++ nl ++ buf.take (p + 1))
        obtain ⟨h3, h4⟩ := ih (buf.drop (p + 1)) ([] ++ nl ++ buf.take (p + 1))
        refine ⟨?_, by rw [h2, h4]⟩
        rw [h1, h3]
        simp [List.append_assoc]

/-! ## Equation helpers for the trace functions -/

theorem trOut_nil {E : Type} : trOut (E := E) [] = [] := rfl

theorem trOut_readOk {E : Type} (c : List Byte) (tr : List (Ev E)) :
    trOut (Ev.readOk c :: tr) = trOut tr := rfl

theorem trOut_readErr {E : Type} (e : E) (tr : List (Ev E)) :
    trOut (Ev.readErr e :: tr) = trOut tr := rfl

theorem trOut_consume {E : Type} (n : Nat) (tr : List (Ev E)) :
    trOut (Ev.consume n :: tr) = trOut tr := rfl

theorem trOut_writeOk {E : Type} (bs : List Byte) (tr : List (Ev E)) :
    trOut (Ev.writeOk bs :: tr) = bs ++ trOut tr := rfl

theorem trOut_writeErr {E : Type} (bs : List Byte) (e : E) (tr : List (Ev E)) :
    trOut (Ev.writeErr bs e :: tr) = trOut tr := rfl

theorem trOut_flushOk {E : Type} (tr : List (Ev E)) :
    trOut (Ev.flushOk :: tr) = trOut tr := rfl

theorem trOut_flushErr {E : Type} (e : E) (tr : List (Ev E)) :
    trOut (Ev.flushErr e :: tr) = trOut tr := rfl

theorem trOut_append {E : Type} :
    ∀ (t1 t2 : List (Ev E)), trOut (t1 ++ t2) = trOut t1 ++ trOut t2 := by
  intro t1
  induction t1 with
  | nil => intro t2; rfl
  | cons ev tr ih =>
    intro t2
    cases ev <;>
      simp [trOut_readOk, trOut_readErr, trOut_consume, trOut_writeOk, trOut_writeErr,
        trOut_flushOk, trOut_flushErr, ih, List.append_assoc]

theorem wres_none {E : Type} {ws : List (Option E)} (hall : ∀ w ∈ ws, w = none) :
    (wres ws).1 = none ∧ ∀ w ∈ (wres ws).2, w = none := by
  cases ws with
  | nil => exact ⟨rfl, fun w hw => absurd hw (List.not_mem_nil w)⟩
  | cons w t =>
    exact ⟨hall w (List.mem_cons_self _ _), fun x hx => hall x (List.mem_cons_of_mem _ hx)⟩

/-! ## Unfolding equations for `runLoop` -/

theorem runLoop_nil {E : Type} (ws : List (Option E)) (nlbuf : List Byte) :
    runLoop [] ws nlbuf = ([Ev.readOk []], Except.ok ()) := rfl

theorem runLoop_readErr {E : Type} (e : E) (rest : List (Except E (List Byte)))
    (ws : List (Option E)) (nlbuf : List Byte) :
    runLoop (Except.error e :: rest) ws nlbuf = ([Ev.readErr e], Except.error e) := rfl

theorem runLoop_empty {E : Type} {buf : List Byte} (rest : List (Except E (List Byte)))
    (ws : List (Option E)) (nlbuf : List Byte) (hb : buf.isEmpty = true) :
    runLoop (Except.ok buf :: rest) ws nlbuf = ([Ev.readOk buf], Except.ok ()) := by
  simp [runLoop, hb]

theorem runLoop_none {E : Type} {buf : List Byte} (rest : List (Except E (List Byte)))
    (ws : List (Option E)) (nlbuf : List Byte) (hb : ¬buf.isEmpty = true)
    (hrp : rposition (fun b => !is_newline b) buf = none) :
    runLoop (Except.ok buf :: rest) ws nlbuf =
      (Ev.readOk buf :: Ev.consume buf.length :: (runLoop rest ws (nlbuf ++ buf)).1,
        (runLoop rest ws (nlbuf ++ buf)).2) := by
  simp only [runLoop, if_neg hb, hrp]

theorem runLoop_some_fail1 {E : Type} {buf : List Byte} {ws : List (Option E)} {p : Nat}
    {e : E} (rest : List (Except E (List Byte))) (nlbuf : List Byte)
    (hb : ¬buf.isEmpty = true) (hrp : rposition (fun b => !is_newline b) buf = some p)
    (h1 : (wres ws).1 = some e) :
    runLoop (Except.ok buf :: rest) ws nlbuf =
      ([Ev.readOk buf, Ev.writeErr nlbuf e], Except.error e) := by
  cases ws with
  | nil => simp [wres] at h1
  | cons w t =>
    simp only [wres] at h1
    subst h1
    simp only [runLoop, if_neg hb, hrp]
    rfl

theorem runLoop_some_fail2 {E : Type} {buf : List Byte} {ws : List (Option E)} {p : Nat}
    {e : E} (rest : List (Except E (List Byte))) (nlbuf : List Byte)
    (hb : ¬buf.isEmpty = true) (hrp : rposition (fun b => !is_newline b) buf = some p)
    (h1 : (wres ws).1 = none) (h2 : (wres (wres ws).2).1 = some e) :
    runLoop (Except.ok buf :: rest) ws nlbuf =
      ([Ev.readOk buf, Ev.writeOk nlbuf, Ev.writeErr (buf.take (p + 1)) e],
        Except.error e) := by
  cases ws with
  | nil => simp [wres] at h2
  | cons w t =>
    simp only [wres] at h1 h2
    subst h1
    cases t with
    | nil => simp [wres] at h2
    | cons w2 t2 =>
      simp only [wres] at h2
      subst h2
      simp only [runLoop, if_neg hb, hrp]
      rfl

theorem runLoop_some_ok2 {E : Type} {buf : List Byte} {ws : List (Option E)} {p : Nat}
    (rest : List (Except E (List Byte))) (nlbuf : List Byte)
    (hb : ¬buf.isEmpty = true) (hrp : rposition (fun b => !is_newline b) buf = some p)
    (h1 : (wres ws).1 = none) (h2 : (wres (wres ws).2).1 = none) :
    runLoop (Except.ok buf :: rest) ws nlbuf =
      (Ev.readOk buf :: Ev.writeOk nlbuf :: Ev.writeOk (buf.take (p + 1)) ::
        Ev.consume buf.length :: (runLoop rest (wres (wres ws).2).2 (buf.drop (p + 1))).1,
        (runLoop rest (wres (wres ws).2).2 (buf.drop (p + 1))).2) := by
  cases ws with
  | nil => simp only [runLoop, if_neg hb, hrp]; rfl
  | cons w t =>
    simp only [wres] at h1
    subst h1
    cases t with
    | nil => simp only [runLoop, if_neg hb, hrp]; rfl
    | cons w2 t2 =>
      simp only [wres] at h2
      subst h2
      simp only [runLoop, if_neg hb, hrp]
      rfl

/-! ## Success path of the trace model -/

theorem runLoop_ok_of_ok {E : Type} :
    ∀ (reads : List (Except E (List Byte))) (ws : List (Option E)) (nlbuf : List Byte),
      (∀ r ∈ reads, ∀ e, r ≠ Except.error e) → (∀ w ∈ ws, w = none) →
      (runLoop reads ws nlbuf).2 = Except.ok () := by
  intro reads
  induction reads with
  | nil => intro ws nlbuf _ _; rfl
  | cons r rest ih =>
    intro ws nlbuf hr hw
    cases r with
    | error e => exact absurd rfl (hr _ (List.mem_cons_self _ _) e)
    | ok buf =>
      by_cases hb : buf.isEmpty
      · simp [runLoop, hb]
      · simp only [runLoop, if_neg hb]
        cases hrp : rposition (fun b => !is_newline b) buf with
        | none =>
          exact ih ws (nlbuf ++ buf) (fun x hx e => hr x (List.mem_cons_of_mem _ hx) e) hw
        | some p =>
          have hrr : ∀ x ∈ rest, ∀ e, x ≠ Except.error e :=
            fun x hx e => hr x (List.mem_cons_of_mem _ hx) e
          cases ws with
          | nil =>
            exact ih [] (buf.drop (p + 1)) hrr
              (fun w hw2 => absurd hw2 (List.not_mem_nil w))
          | cons w t =>
            have hwn : w = none := hw w (List.mem_cons_self _ _)
            subst hwn
            cases t with
            | nil =>
              exact ih [] (buf.drop (p + 1)) hrr
                (fun w hw2 => absurd hw2 (List.not_mem_nil w))
            | cons w2 t2 =>
              have hwn2 : w2 = none := hw w2 (List.mem_cons_of_mem _ (List.mem_cons_self _ _))
              subst hwn2
              exact ih t2 (buf.drop (p + 1)) hrr
                (fun x hx => hw x (List.mem_cons_of_mem _ (List.mem_cons_of_mem _ hx)))

/-! ## Equation helpers for `consumeDiscipline` and `delivered` -/

theorem cd_none_readOk {E : Type} (c : List Byte) (tr : List (Ev E)) :
    consumeDiscipline none (Ev.readOk c :: tr) =
      if c.isEmpty then consumeDiscipline none tr
      else consumeDiscipline (some c.length) tr := rfl

theorem cd_none_readErr {E : Type} (e : E) (tr : List (Ev E)) :
    consumeDiscipline none (Ev.readErr e :: tr) = consumeDiscipline none tr := rfl

theorem cd_some_consume {E : Type} (n m : Nat) (tr : List (Ev E)) :
    consumeDiscipline (some n) (Ev.consume m :: tr) =
      (m == n && consumeDiscipline none tr) := rfl

theorem cd_some_writeOk {E : Type} (n : Nat) (bs : List Byte) (tr : List (Ev E)) :
    consumeDiscipline (some n) (Ev.writeOk bs :: tr) =
      consumeDiscipline (some n) tr := rfl

theorem cd_some_writeErr {E : Type} (n : Nat) (bs : List Byte) (e : E) (tr : List (Ev E)) :
    consumeDiscipline (some n) (Ev.writeErr bs e :: tr) =
      consumeDiscipline (some n) tr := rfl

theorem cd_some_flushOk {E : Type} (n : Nat) (tr : List (Ev E)) :
    consumeDiscipline (some n) (Ev.flushOk :: tr) = consumeDiscipline (some n) tr := rfl

theorem cd_some_flushErr {E : Type} (n : Nat) (e : E) (tr : List (Ev E)) :
    consumeDiscipline (some n) (Ev.flushErr e :: tr) =
      consumeDiscipline (some n) tr := rfl

theorem cd_none_flushOk {E : Type} (tr : List (Ev E)) :
    consumeDiscipline none (Ev.flushOk :: tr) = consumeDiscipline none tr := rfl

theorem cd_none_flushErr {E : Type} (e : E) (tr : List (Ev E)) :
    consumeDiscipline none (Ev.flushErr e :: tr) = consumeDiscipline none tr := rfl

theorem cd_none_nil {E : Type} : consumeDiscipline (E := E) none [] = true := rfl

theorem cd_some_nil {E : Type} (n : Nat) :
    consumeDiscipline (E := E) (some n) [] = true := rfl

theorem delivered_nil {E : Type} : delivered (E := E) [] = [] := rfl

theorem delivered_err {E : Type} (e : E) (rest : List (Except E (List Byte))) :
    delivered (Except.error e :: rest) = [] := rfl

theorem delivered_ok {E : Type} (c : List Byte) (rest : List (Except E (List Byte))) :
    delivered (Except.ok c :: rest) =
      if c.isEmpty then [] else c ++ delivered rest := rfl

/-! ## Clean traces on success, failing call last on error -/

theorem runLoop_ok_clean {E : Type} :
    ∀ (reads : List (Except E (List Byte))) (ws : List (Option E)) (nlbuf : List Byte),
      (runLoop reads ws nlbuf).2 = Except.ok () →
      ∀ x ∈ (runLoop reads ws nlbuf).1, errOf x = none := by
  intro reads
  induction reads with
  | nil =>
    intro ws nlbuf _ x hx
    rw [runLoop_nil] at hx
    rcases List.mem_singleton.mp hx with rfl
    rfl
  | cons r rest ih =>
    intro ws nlbuf h x hx
    cases r with
    | error e =>
      rw [runLoop_readErr] at h
      simp at h
    | ok buf =>
      by_cases hb : buf.isEmpty
      · rw [runLoop_empty rest ws nlbuf hb] at hx
        rcases List.mem_singleton.mp hx with rfl
        rfl
      · cases hrp : rposition (fun b => !is_newline b) buf with
        | none =>
          rw [runLoop_none rest ws nlbuf hb hrp] at h hx
          rcases List.mem_cons.mp hx with rfl | hx2
          · rfl
          rcases List.mem_cons.mp hx2 with rfl | hx3
          · rfl
          exact ih ws (nlbuf ++ buf) h x hx3
        | some p =>
          cases h1 : (wres ws).1 with
          | some e =>
            rw [runLoop_some_fail1 rest nlbuf hb hrp h1] at h
            simp at h
          | none =>
            cases h2 : (wres (wres ws).2).1 with
            | some e =>
              rw [runLoop_some_fail2 rest nlbuf hb hrp h1 h2] at h
              simp at h
            | none =>
              rw [runLoop_some_ok2 rest nlbuf hb hrp h1 h2] at h hx
              rcases List.mem_cons.mp hx with rfl | hx2
              · rfl
              rcases List.mem_cons.mp hx2 with rfl | hx3
              · rfl
              rcases List.mem_cons.mp hx3 with rfl | hx4
              · rfl
              rcases List.mem_cons.mp hx4 with rfl | hx5
              · rfl
              exact ih _ (buf.drop (p + 1)) h x hx5

theorem runLoop_error_shape {E : Type} :
    ∀ (reads : List (Except E (List Byte))) (ws : List (Option E)) (nlbuf : List Byte)
      (e : E), (runLoop reads ws nlbuf).2 = Except.error e →
      ∃ tr ev, (runLoop reads ws nlbuf).1 = tr ++ [ev] ∧ errOf ev = some e ∧
        ∀ x ∈ tr, errOf x = none := by
  intro reads
  induction reads with
  | nil =>
    intro ws nlbuf e h
    rw [runLoop_nil] at h
    simp at h
  | cons r rest ih =>
    intro ws nlbuf e h
    cases r with
    | error e2 =>
      rw [runLoop_readErr] at h
      simp only at h
      cases h
      rw [runLoop_readErr]
      exact ⟨[], Ev.readErr e, rfl, rfl, fun x hx => absurd hx (List.not_mem_nil x)⟩
    | ok buf =>
      by_cases hb : buf.isEmpty
      · rw [runLoop_empty rest ws nlbuf hb] at h
        simp at h
      · cases hrp : rposition (fun b => !is_newline b) buf with
        | none =>
          rw [runLoop_none rest ws nlbuf hb hrp] at h
          obtain ⟨tr, ev, htr, hev, hcl⟩ := ih ws (nlbuf ++ buf) e h
          rw [runLoop_none rest ws nlbuf hb hrp]
          refine ⟨Ev.readOk buf :: Ev.consume buf.length :: tr, ev, ?_, hev, ?_⟩
          · show Ev.readOk buf :: Ev.consume buf.length :: (runLoop rest ws (nlbuf ++ buf)).1
              = (Ev.readOk buf :: Ev.consume buf.length :: tr) ++ [ev]
            rw [htr]
            rfl
          · intro x hx
            rcases List.mem_cons.mp hx with rfl | hx2
            · rfl
            rcases List.mem_cons.mp hx2 with rfl | hx3
            · rfl
            exact hcl x hx3
        | some p =>
          cases h1 : (wres ws).1 with
          | some e2 =>
            rw [runLoop_some_fail1 rest nlbuf hb hrp h1] at h
            simp only at h
            cases h
            rw [runLoop_some_fail1 rest nlbuf hb hrp h1]
            refine ⟨[Ev.readOk buf], Ev.writeErr nlbuf e, rfl, rfl, ?_⟩
            intro x hx
            rcases List.mem_singleton.mp hx with rfl
            rfl
          | none =>
            cases h2 : (wres (wres ws).2).1 with
            | some e2 =>
              rw [runLoop_some_fail2 rest nlbuf hb hrp h1 h2] at h
              simp only at h
              cases h
              rw [runLoop_some_fail2 rest nlbuf hb hrp h1 h2]
              refine ⟨[Ev.readOk buf, Ev.writeOk nlbuf], Ev.writeErr (buf.take (p + 1)) e,
                rfl, rfl, ?_⟩
              intro x hx
              rcases List.mem_cons.mp hx with rfl | hx2
              · rfl
              rcases List.mem_singleton.mp hx2 with rfl
              rfl
            | none =>
              rw [runLoop_some_ok2 rest nlbuf hb hrp h1 h2] at h
              obtain ⟨tr, ev, htr, hev, hcl⟩ := ih _ (buf.drop (p + 1)) e h
              rw [runLoop_some_ok2 rest nlbuf hb hrp h1 h2]
              refine ⟨Ev.readOk buf :: Ev.writeOk nlbuf :: Ev.writeOk (buf.take (p + 1)) ::
                Ev.consume buf.length :: tr, ev, ?_, hev, ?_⟩
              · show Ev.readOk buf :: Ev.writeOk nlbuf :: Ev.writeOk (buf.take (p + 1)) ::
                  Ev.consume buf.length :: (runLoop rest (wres (wres ws).2).2 (buf.drop (p + 1))).1
                  = _ ++ [ev]
                rw [htr]
                rfl
              · intro x hx
                rcases List.mem_cons.mp hx with rfl | hx2
                · rfl
                rcases List.mem_cons.mp hx2 with rfl | hx3
                · rfl
                rcases List.mem_cons.mp hx3 with rfl | hx4
                · rfl
                rcases List.mem_cons.mp hx4 with rfl | hx5
                · rfl
                exact hcl x hx5

theorem runLoop_no_flush {E : Type} :
    ∀ (reads : List (Except E (List Byte))) (ws : List (Option E)) (nlbuf : List Byte),
      ∀ x ∈ (runLoop reads ws nlbuf).1, isFlush x = false := by
  intro reads
  induction reads with
  | nil =>
    intro ws nlbuf x hx
    rw [runLoop_nil] at hx
    rcases List.mem_singleton.mp hx with rfl
    rfl
  | cons r rest ih =>
    intro ws nlbuf x hx
    cases r with
    | error e =>
      rw [runLoop_readErr] at hx
      rcases List.mem_singleton.mp hx with rfl
      rfl
    | ok buf =>
      by_cases hb : buf.isEmpty
      · rw [runLoop_empty rest ws nlbuf hb] at hx
        rcases List.mem_singleton.mp hx with rfl
        rfl
      · cases hrp : rposition (fun b => !is_newline b) buf with
        | none =>
          rw [runLoop_none rest ws nlbuf hb hrp] at hx
          rcases List.mem_cons.mp hx with rfl | hx2
          · rfl
          rcases List.mem_cons.mp hx2 with rfl | hx3
          · rfl
          exact ih ws (nlbuf ++ buf) x hx3
        | some p =>
          cases h1 : (wres ws).1 with
          | some e =>
            rw [runLoop_some_fail1 rest nlbuf hb hrp h1] at hx
            rcases List.mem_cons.mp hx with rfl | hx2
            · rfl
            rcases List.mem_singleton.mp hx2 with rfl
            rfl
          | none =>
            cases h2 : (wres (wres ws).2).1 with
            | some e =>
              rw [runLoop_some_fail2 rest nlbuf hb hrp h1 h2] at hx
              rcases List.mem_cons.mp hx with rfl | hx2
              · rfl
              rcases List.mem_cons.mp hx2 with rfl | hx3
              · rfl
              rcases List.mem_singleton.mp hx3 with rfl
              rfl
            | none =>
              rw [runLoop_some_ok2 rest nlbuf hb hrp h1 h2] at hx
              rcases List.mem_cons.mp hx with rfl | hx2
              · rfl
              rcases List.mem_cons.mp hx2 with rfl | hx3
              · rfl
              rcases List.mem_cons.mp hx3 with rfl | hx4
              · rfl
              rcases List.mem_cons.mp hx4 with rfl | hx5
              · rfl
              exact ih _ (buf.drop (p + 1)) x hx5

theorem runLoop_consume {E : Type} :
    ∀ (reads : List (Except E (List Byte))) (ws : List (Option E)) (nlbuf : List Byte)
      (post : List (Ev E)), (∀ s, consumeDiscipline s post = true) →
      consumeDiscipline none ((runLoop reads ws nlbuf).1 ++ post) = true := by
  intro reads
  induction reads with
  | nil =>
    intro ws nlbuf post hpost
    rw [runLoop_nil]
    simpa [cd_none_readOk] using hpost none
  | cons r rest ih =>
    intro ws nlbuf post hpost
    cases r with
    | error e =>
      rw [runLoop_readErr]
      simpa [cd_none_readErr] using hpost none
    | ok buf =>
      by_cases hb : buf.isEmpty
      · rw [runLoop_empty rest ws nlbuf hb]
        simpa [cd_none_readOk, hb] using hpost none
      · cases hrp : rposition (fun b => !is_newline b) buf with
        | none =>
          rw [runLoop_none rest ws nlbuf hb hrp]
          have h3 := ih ws (nlbuf ++ buf) post hpost
          simpa [cd_none_readOk, hb, cd_some_consume] using h3
        | some p =>
          cases h1 : (wres ws).1 with
          | some e =>
            rw [runLoop_some_fail1 rest nlbuf hb hrp h1]
            simpa [cd_none_readOk, hb, cd_some_writeErr] using hpost (some buf.length)
          | none =>
            cases h2 : (wres (wres ws).2).1 with
            | some e =>
              rw [runLoop_some_fail2 rest nlbuf hb hrp h1 h2]
              simpa [cd_none_readOk, hb, cd_some_writeOk, cd_some_writeErr]
                using hpost (some buf.length)
            | none =>
              rw [runLoop_some_ok2 rest nlbuf hb hrp h1 h2]
              have h3 := ih (wres (wres ws).2).2 (buf.drop (p + 1)) post hpost
              simpa [cd_none_readOk, hb, cd_some_writeOk, cd_some_consume] using h3

/-! ## The trace model agrees with the pure model on the success path -/

theorem runChunks_cons (st : St) (buf : List Byte) (rest : List (List Byte)) :
    runChunks st (buf :: rest) =
      if buf.isEmpty then st else runChunks (stepChunk st buf) rest := rfl

theorem stepChunk_none2 (nl o buf : List Byte)
    (hrp : rposition (fun b => !is_newline b) buf = none) :
    stepChunk ⟨nl, o⟩ buf = ⟨nl ++ buf, o⟩ := by
  unfold stepChunk
  rw [hrp]

theorem stepChunk_some2 (nl o buf : List Byte) (p : Nat)
    (hrp : rposition (fun b => !is_newline b) buf = some p) :
    stepChunk ⟨nl, o⟩ buf = ⟨buf.drop (p + 1), o ++ nl ++ buf.take (p + 1)⟩ := by
  unfold stepChunk
  rw [hrp]

theorem runLoop_pure {E : Type} :
    ∀ (chunks : List (List Byte)) (ws : List (Option E)) (nlbuf : List Byte),
      (∀ w ∈ ws, w = none) →
      trOut (runLoop (chunks.map Except.ok) ws nlbuf).1 =
        (runChunks ⟨nlbuf, []⟩ chunks).out := by
  intro chunks
  induction chunks with
  | nil =>
    intro ws nlbuf _
    rw [List.map_nil, runLoop_nil]
    rfl
  | cons buf rest ih =>
    intro ws nlbuf hw
    rw [List.map_cons]
    by_cases hb : buf.isEmpty
    · rw [runLoop_empty (rest.map Except.ok) ws nlbuf hb, runChunks_cons, if_pos hb]
      rfl
    · cases hrp : rposition (fun b => !is_newline b) buf with
      | none =>
        rw [runLoop_none (rest.map Except.ok) ws nlbuf hb hrp, trOut_readOk, trOut_consume,
          ih ws (nlbuf ++ buf) hw, runChunks_cons, if_neg hb, stepChunk_none2 nlbuf [] buf hrp]
      | some p =>
        have h1 : (wres ws).1 = none := (wres_none hw).1
        have hall1 := (wres_none hw).2
        have h2 : (wres (wres ws).2).1 = none := (wres_none hall1).1
        have hall2 := (wres_none hall1).2
        rw [runLoop_some_ok2 (rest.map Except.ok) nlbuf hb hrp h1 h2,
          trOut_readOk, trOut_writeOk, trOut_writeOk, trOut_consume,
          ih (wres (wres ws).2).2 (buf.drop (p + 1)) hall2,
          runChunks_cons, if_neg hb, stepChunk_some2 nlbuf [] buf p hrp]
        obtain ⟨ha, _⟩ := runChunks_accum rest (buf.drop (p + 1))
          ([] ++ nlbuf ++ buf.take (p + 1))
        rw [ha]
        simp [List.append_assoc]

/-! ## Whatever has been written is a prefix of the trimmed input -/

theorem runLoop_written_le_trim {E : Type} :
    ∀ (reads : List (Except E (List Byte))) (ws : List (Option E)) (u s : List Byte),
      u ++ delivered reads <+: s →
      trim u ++ trOut (runLoop reads ws (nlSuffix u)).1 <+: trim s := by
  intro reads
  induction reads with
  | nil =>
    intro ws u s h
    rw [delivered_nil, List.append_nil] at h
    rw [runLoop_nil]
    simpa [trOut_readOk, trOut_nil] using trim_mono h
  | cons r rest ih =>
    intro ws u s h
    cases r with
    | error e =>
      rw [delivered_err, List.append_nil] at h
      rw [runLoop_readErr]
      simpa [trOut_readErr, trOut_nil] using trim_mono h
    | ok buf =>
      by_cases hb : buf.isEmpty
      · rw [delivered_ok, if_pos hb, List.append_nil] at h
        rw [runLoop_empty rest ws (nlSuffix u) hb]
        simpa [trOut_readOk, trOut_nil] using trim_mono h
      · rw [delivered_ok, if_neg hb, ← List.append_assoc] at h
        have hub : u ++ buf <+: s := (List.prefix_append _ _).trans h
        have hu : u <+: s := (List.prefix_append u buf).trans hub
        cases hrp : rposition (fun b => !is_newline b) buf with
        | none =>
          obtain ⟨ht, hs⟩ := step_facts_none (u := u) hrp
          rw [runLoop_none rest ws (nlSuffix u) hb hrp, trOut_readOk, trOut_consume,
            ← hs, ← ht]
          exact ih ws (u ++ buf) s h
        | some p =>
          obtain ⟨ht, hs⟩ := step_facts_some (u := u) hrp
          cases h1 : (wres ws).1 with
          | some e =>
            rw [runLoop_some_fail1 rest (nlSuffix u) hb hrp h1]
            simpa [trOut_readOk, trOut_writeErr, trOut_nil] using trim_mono hu
          | none =>
            cases h2 : (wres (wres ws).2).1 with
            | some e =>
              rw [runLoop_some_fail2 rest (nlSuffix u) hb hrp h1 h2]
              have hq : u <+: trim s := by
                have h4 : trim (u ++ buf) <+: trim s := trim_mono hub
                have h5 : u <+: trim (u ++ buf) := by
                  rw [ht]
                  exact List.prefix_append _ _
                exact h5.trans h4
              simpa [trOut_readOk, trOut_writeOk, trOut_writeErr, trOut_nil,
                trim_append_nlSuffix] using hq
            | none =>
              rw [runLoop_some_ok2 rest (nlSuffix u) hb hrp h1 h2,
                trOut_readOk, trOut_writeOk, trOut_writeOk, trOut_consume]
              have h6 := ih (wres (wres ws).2).2 (u ++ buf) s h
              rw [hs, ht] at h6
              have he : trim u ++ (nlSuffix u ++ (buf.take (p + 1) ++
                  trOut (runLoop rest (wres (wres ws).2).2 (buf.drop (p + 1))).1)) =
                  (u ++ buf.take (p + 1)) ++
                    trOut (runLoop rest (wres (wres ws).2).2 (buf.drop (p + 1))).1 := by
                rw [← List.append_assoc, trim_append_nlSuffix, ← List.append_assoc]
              rw [he]
              exact h6

/-! ## Unfolding `snickerdoodleRun` by the loop's outcome -/

theorem snickRun_ok_none {E : Type} (reads : List (Except E (List Byte)))
    (ws : List (Option E)) (h : (runLoop reads ws []).2 = Except.ok ()) :
    snickerdoodleRun reads ws none =
      ((runLoop reads ws []).1 ++ [Ev.flushOk], Except.ok ()) := by
  unfold snickerdoodleRun
  cases hrl : runLoop reads ws [] with
  | mk tr res =>
    rw [hrl] at h
    have h2 : res = Except.ok () := h
    subst h2
    rfl

theorem snickRun_ok_some {E : Type} (reads : List (Except E (List Byte)))
    (ws : List (Option E)) (e : E) (h : (runLoop reads ws []).2 = Except.ok ()) :
    snickerdoodleRun reads ws (some e) =
      ((runLoop reads ws []).1 ++ [Ev.flushErr e], Except.error e) := by
  unfold snickerdoodleRun
  cases hrl : runLoop reads ws [] with
  | mk tr res =>
    rw [hrl] at h
    have h2 : res = Except.ok () := h
    subst h2
    rfl

theorem snickRun_err {E : Type} (reads : List (Except E (List Byte)))
    (ws : List (Option E)) (fr : Option E) (e : E)
    (h : (runLoop reads ws []).2 = Except.error e) :
    snickerdoodleRun reads ws fr = ((runLoop reads ws []).1, Except.error e) := by
  unfold snickerdoodleRun
  cases hrl : runLoop reads ws [] with
  | mk tr res =>
    rw [hrl] at h
    have h2 : res = Except.error e := h
    subst h2
    rfl

theorem runLoop_stop_at_empty {E : Type} :
    ∀ (rs rest : List (Except E (List Byte))) (ws : List (Option E)) (nlbuf : List Byte),
      runLoop (rs ++ Except.ok [] :: rest) ws nlbuf =
        runLoop (rs ++ [Except.ok []]) ws nlbuf := by
  intro rs
  induction rs with
  | nil =>
    intro rest ws nlbuf
    rw [List.nil_append, List.nil_append,
      runLoop_empty rest ws nlbuf (show (([] : List Byte)).isEmpty = true from rfl),
      runLoop_empty [] ws nlbuf (show (([] : List Byte)).isEmpty = true from rfl)]
  | cons r rs ih =>
    intro rest ws nlbuf
    cases r with
    | error e =>
      rw [List.cons_append, List.cons_append, runLoop_readErr, runLoop_readErr]
    | ok buf =>
      rw [List.cons_append, List.cons_append]
      by_cases hb : buf.isEmpty
      · rw [runLoop_empty _ ws nlbuf hb, runLoop_empty _ ws nlbuf hb]
      · cases hrp : rposition (fun b => !is_newline b) buf with
        | none =>
          rw [runLoop_none _ ws nlbuf hb hrp, runLoop_none _ ws nlbuf hb hrp, ih]
        | some p =>
          cases h1 : (wres ws).1 with
          | some e =>
            rw [runLoop_some_fail1 _ nlbuf hb hrp h1, runLoop_some_fail1 _ nlbuf hb hrp h1]
          | none =>
            cases h2 : (wres (wres ws).2).1 with
            | some e =>
              rw [runLoop_some_fail2 _ nlbuf hb hrp h1 h2,
                runLoop_some_fail2 _ nlbuf hb hrp h1 h2]
            | none =>
              rw [runLoop_some_ok2 _ nlbuf hb hrp h1 h2,
                runLoop_some_ok2 _ nlbuf hb hrp h1 h2, ih]

/-! ## The claims -/

/-- C1: for every finite input delivered as non-empty chunks, if every source
read and every sink write/flush succeeds (no injected failures), then
`snickerdoodle` returns success and the sink has received exactly
`trim` of the input; in particular an empty or all-newline input yields
an empty output (`trim` of such an input is `[]`). -/
theorem c1_success_writes_trim (E : Type) (chunks : List (List Byte))
    (h : ∀ c ∈ chunks, c ≠ []) :
    (snickerdoodleRun (E := E) (chunks.map Except.ok) [] none).2 = Except.ok () ∧
    trOut (snickerdoodleRun (E := E) (chunks.map Except.ok) [] none).1 =
      trim chunks.flatten := by
  have hok : (runLoop (E := E) (chunks.map Except.ok) [] []).2 = Except.ok () :=
    runLoop_ok_of_ok _ [] []
      (fun r hr e2 => by
        obtain ⟨c, _, rfl⟩ := List.mem_map.mp hr
        exact fun hc => Except.noConfusion hc)
      (fun w hw => absurd hw (List.not_mem_nil w))
  rw [snickRun_ok_none (chunks.map Except.ok) [] hok]
  refine ⟨rfl, ?_⟩
  have hp := runLoop_pure (E := E) chunks [] []
    (fun w hw => absurd hw (List.not_mem_nil w))
  calc trOut ((runLoop (E := E) (chunks.map Except.ok) [] []).1 ++ [Ev.flushOk])
      = trOut (runLoop (E := E) (chunks.map Except.ok) [] []).1 := by
        rw [trOut_append]
        simp [trOut_flushOk, trOut_nil]
    _ = snickOut chunks := hp
    _ = trim chunks.flatten := snickOut_eq_trim h

/-- C2: the output is `trim` of the concatenation of the chunks for every
partitioning of the input into non-empty chunks, hence it does not depend
on the chunking. -/
theorem c2_chunking_independent :
    (∀ chunks : List (List Byte), (∀ c ∈ chunks, c ≠ []) →
      snickOut chunks = trim chunks.flatten) ∧
    (∀ cs1 cs2 : List (List Byte), (∀ c ∈ cs1, c ≠ []) → (∀ c ∈ cs2, c ≠ []) →
      cs1.flatten = cs2.flatten → snickOut cs1 = snickOut cs2) := by
  constructor
  · exact fun chunks h => snickOut_eq_trim h
  · intro cs1 cs2 h1 h2 hj
    rw [snickOut_eq_trim h1, snickOut_eq_trim h2, hj]

/-- C3: on successful completion the byte sequence written to the sink is
either empty or its last byte is not newline-class. -/
theorem c3_no_trailing_newline (chunks : List (List Byte)) (h : ∀ c ∈ chunks, c ≠ []) :
    snickOut chunks = [] ∨
      ∀ b, (snickOut chunks).getLast? = some b → is_newline b = false := by
  right
  intro b hb
  rw [snickOut_eq_trim h] at hb
  exact trim_getLast_not hb

/-- C4: the trimming transform is idempotent, `trim (trim s) = trim s`, and
running `snickerdoodle` on its own output (as one chunk) writes that output
unchanged. -/
theorem c4_trim_idempotent :
    ∀ s : List Byte, trim (trim s) = trim s ∧ snickOut [trim s] = trim s := by
  intro s
  have h1 : trim (trim s) = trim s := by
    rw [trim_eq_rdropWhile, trim_eq_rdropWhile]
    exact List.rdropWhile_idempotent _ _
  refine ⟨h1, ?_⟩
  by_cases he : trim s = []
  · rw [he]
    rfl
  · have h2 := snickOut_eq_trim (fun c hc => by
      rcases List.mem_singleton.mp hc with rfl
      exact he)
    rw [h2]
    simpa using h1

/-- C5: at every loop-iteration boundary every byte of the pending newline
buffer is newline-class; and whenever a chunk causes a non-newline byte to
be written (the chunk has a last non-newline byte at `p`), the buffer is
first flushed and cleared: the new buffer is exactly the chunk's tail
`buf[p+1..]` (all newline-class), with no byte of the old buffer kept. -/
theorem c5_nlbuf_invariant :
    (∀ (chunks : List (List Byte)) (k : Nat), (∀ c ∈ chunks, c ≠ []) →
      ∀ b ∈ (stateAfter chunks k).nlbuf, is_newline b = true) ∧
    (∀ (st : St) (buf : List Byte) (p : Nat),
      rposition (fun b => !is_newline b) buf = some p →
      (stepChunk st buf).nlbuf = buf.drop (p + 1) ∧
      (stepChunk st buf).out = st.out ++ st.nlbuf ++ buf.take (p + 1) ∧
      ∀ b ∈ (stepChunk st buf).nlbuf, is_newline b = true) := by
  constructor
  · intro chunks k h b hb
    have hinv := stateAfter_inv k h
    rw [hinv.2] at hb
    exact nlSuffix_all b hb
  · intro st buf p hrp
    obtain ⟨hlt, hg, hall⟩ := rposition_some hrp
    have hstep : stepChunk st buf =
        ⟨buf.drop (p + 1), st.out ++ st.nlbuf ++ buf.take (p + 1)⟩ := by
      unfold stepChunk
      rw [hrp]
    rw [hstep]
    refine ⟨rfl, rfl, ?_⟩
    intro b hb
    have hmem := hall b hb
    simpa using hmem

/-- C6: at every loop-iteration boundary the length of the pending newline
buffer is at most the length of the longest contiguous newline-class run in
the whole input, independently of the input's total length. -/
theorem c6_nlbuf_bounded (chunks : List (List Byte)) (k : Nat)
    (h : ∀ c ∈ chunks, c ≠ []) :
    (stateAfter chunks k).nlbuf.length ≤ longestNlRun chunks.flatten :=
  nlbuf_le_longest k h

/-- C7: when every read and write succeeds and the flush succeeds the run
returns success; and whenever the run returns an error `e`, the trace ends
with the failing call carrying exactly `e` (unmodified), no earlier call
failed, and no read, write or flush happens after the failing call (it is
the last event of the trace). -/
theorem c7_error_propagation (E : Type) (reads : List (Except E (List Byte)))
    (ws : List (Option E)) (fr : Option E) :
    ((∀ r ∈ reads, ∀ e, r ≠ Except.error e) → (∀ w ∈ ws, w = none) → fr = none →
      (snickerdoodleRun reads ws fr).2 = Except.ok ()) ∧
    (∀ e, (snickerdoodleRun reads ws fr).2 = Except.error e →
      ∃ tr ev, (snickerdoodleRun reads ws fr).1 = tr ++ [ev] ∧ errOf ev = some e ∧
        ∀ x ∈ tr, errOf x = none) := by
  constructor
  · intro hr hw hf
    subst hf
    have hok := runLoop_ok_of_ok reads ws [] hr hw
    rw [snickRun_ok_none reads ws hok]
  · intro e h
    cases hres : (runLoop reads ws []).2 with
    | error e2 =>
      rw [snickRun_err reads ws fr e2 hres] at h
      have h2 : Except.error (α := Unit) e2 = Except.error e := h
      cases h2
      obtain ⟨tr, ev, htr, hev, hcl⟩ := runLoop_error_shape reads ws [] e hres
      rw [snickRun_err reads ws fr e hres]
      exact ⟨tr, ev, htr, hev, hcl⟩
    | ok u =>
      cases u
      cases fr with
      | none =>
        rw [snickRun_ok_none reads ws hres] at h
        exact Except.noConfusion (show (Except.ok () : Except E Unit) = Except.error e from h)
      | some e2 =>
        rw [snickRun_ok_some reads ws e2 hres] at h
        have h2 : Except.error (α := Unit) e2 = Except.error e := h
        cases h2
        rw [snickRun_ok_some reads ws e hres]
        exact ⟨(runLoop reads ws []).1, Ev.flushErr e, rfl, rfl,
          runLoop_ok_clean reads ws [] hres⟩

/-- C8: on every successful run the flush call is the last event of the
trace and the only flush event: it happens exactly once, strictly after
every write, before returning success. -/
theorem c8_flush_once (E : Type) (reads : List (Except E (List Byte)))
    (ws : List (Option E)) (fr : Option E)
    (h : (snickerdoodleRun reads ws fr).2 = Except.ok ()) :
    ∃ tr, (snickerdoodleRun reads ws fr).1 = tr ++ [Ev.flushOk] ∧
      ∀ x ∈ tr, isFlush x = false := by
  cases hres : (runLoop reads ws []).2 with
  | error e =>
    rw [snickRun_err reads ws fr e hres] at h
    exact Except.noConfusion (show (Except.error e : Except E Unit) = Except.ok () from h)
  | ok u =>
    cases u
    cases fr with
    | some e =>
      rw [snickRun_ok_some reads ws e hres] at h
      exact Except.noConfusion
        (show (Except.error e : Except E Unit) = Except.ok () from h)
    | none =>
      rw [snickRun_ok_none reads ws hres]
      exact ⟨(runLoop reads ws []).1, rfl, runLoop_no_flush reads ws []⟩

/-- C9: an empty chunk is the termination signal: everything the source
would produce after it is never requested (so a source that eventually
delivers an empty chunk terminates the loop), it is not an error (an
error-free run through it returns success), and every successfully read
non-empty chunk is `consume`d with its full length before the next read. -/
theorem c9_termination_consume (E : Type) :
    (∀ (rs rest : List (Except E (List Byte))) (ws : List (Option E)) (fr : Option E),
      snickerdoodleRun (rs ++ Except.ok [] :: rest) ws fr =
        snickerdoodleRun (rs ++ [Except.ok []]) ws fr) ∧
    (∀ (rs : List (Except E (List Byte))) (ws : List (Option E)),
      (∀ r ∈ rs, ∀ e, r ≠ Except.error e) → (∀ w ∈ ws, w = none) →
      (snickerdoodleRun (rs ++ [Except.ok []]) ws none).2 = Except.ok ()) ∧
    (∀ (reads : List (Except E (List Byte))) (ws : List (Option E)) (fr : Option E),
      consumeDiscipline none (snickerdoodleRun reads ws fr).1 = true) := by
  refine ⟨?_, ?_, ?_⟩
  · intro rs rest ws fr
    unfold snickerdoodleRun
    rw [runLoop_stop_at_empty rs rest ws []]
  · intro rs ws hr hw
    have hok := runLoop_ok_of_ok (rs ++ [Except.ok []]) ws []
      (fun r hrm e => by
        rcases List.mem_append.mp hrm with hm | hm
        · exact hr r hm e
        · rcases List.mem_singleton.mp hm with rfl
          exact fun hc => Except.noConfusion hc)
      hw
    rw [snickRun_ok_none _ ws hok]
  · intro reads ws fr
    cases hres : (runLoop reads ws []).2 with
    | error e =>
      rw [snickRun_err reads ws fr e hres]
      have h3 := runLoop_consume reads ws [] []
        (fun s => by cases s <;> rfl)
      simpa using h3
    | ok u =>
      cases u
      cases fr with
      | none =>
        rw [snickRun_ok_none reads ws hres]
        exact runLoop_consume reads ws [] [Ev.flushOk] (fun s => by cases s <;> rfl)
      | some e =>
        rw [snickRun_ok_some reads ws e hres]
        exact runLoop_consume reads ws [] [Ev.flushErr e] (fun s => by cases s <;> rfl)

/-- C10: at every loop-iteration boundary, the bytes written to the sink
followed by the pending newline buffer are exactly the bytes consumed so
far; and at every stopping point of any run — success, read error, or
write/flush error — the bytes written to the sink form a prefix of `trim`
of any stream the source's deliveries are a prefix of. -/
theorem c10_prefix_invariant :
    (∀ (chunks : List (List Byte)) (k : Nat), (∀ c ∈ chunks, c ≠ []) →
      (stateAfter chunks k).out ++ (stateAfter chunks k).nlbuf =
        (chunks.take k).flatten) ∧
    (∀ (E : Type) (reads : List (Except E (List Byte))) (ws : List (Option E))
      (fr : Option E) (s : List Byte), delivered reads <+: s →
      trOut (snickerdoodleRun reads ws fr).1 <+: trim s) := by
  constructor
  · intro chunks k h
    have hinv := stateAfter_inv k h
    rw [hinv.1, hinv.2, trim_append_nlSuffix]
  · intro E reads ws fr s h
    have h7 := runLoop_written_le_trim reads ws [] s (by simpa using h)
    have h8 : trOut (runLoop reads ws []).1 <+: trim s := by simpa [trim, nlSuffix] using h7
    cases hres : (runLoop reads ws []).2 with
    | error e =>
      rw [snickRun_err reads ws fr e hres]
      exact h8
    | ok u =>
      cases u
      cases fr with
      | none =>
        rw [snickRun_ok_none reads ws hres]
        show trOut ((runLoop reads ws []).1 ++ [Ev.flushOk]) <+: trim s
        rw [trOut_append]
        simpa [trOut_flushOk, trOut_nil] using h8
      | some e =>
        rw [snickRun_ok_some reads ws e hres]
        show trOut ((runLoop reads ws []).1 ++ [Ev.flushErr e]) <+: trim s
        rw [trOut_append]
        simpa [trOut_flushErr, trOut_nil] using h8

/-! ## Witnesses: the claim theorems at concrete inputs -/

/-- Witness for C1 at the input "a\n" delivered as one chunk. -/
theorem c1_witness :
    (snickerdoodleRun (E := Nat) [Except.ok [97, 10]] [] none).2 = Except.ok () ∧
    trOut (snickerdoodleRun (E := Nat) [Except.ok [97, 10]] [] none).1 =
      trim [97, 10] := by
  have h := c1_success_writes_trim Nat [[97, 10]] (by decide)
  simpa using h

/-- Witness for C2: the same input in two chunkings. -/
theorem c2_witness :
    snickOut [[97], [10], [98, 10]] = trim [97, 10, 98, 10] ∧
    snickOut [[97, 10, 98, 10]] = snickOut [[97], [10], [98, 10]] := by
  constructor
  · have h := c2_chunking_independent.1 [[97], [10], [98, 10]] (by decide)
    simpa using h
  · exact c2_chunking_independent.2 [[97, 10, 98, 10]] [[97], [10], [98, 10]]
      (by decide) (by decide) (by decide)

/-- Witness for C3 at the input "a\n". -/
theorem c3_witness :
    snickOut [[97, 10]] = [] ∨
      ∀ b, (snickOut [[97, 10]]).getLast? = some b → is_newline b = false :=
  c3_no_trailing_newline [[97, 10]] (by decide)

/-- Witness for C5: the buffer invariant after two chunks, and the clearing
of the buffer on a chunk whose last non-newline byte is at index 1. -/
theorem c5_witness :
    (∀ b ∈ (stateAfter [[97, 10], [13]] 2).nlbuf, is_newline b = true) ∧
    (stepChunk ⟨[13], [97]⟩ [10, 98, 10]).nlbuf = [10] := by
  refine ⟨c5_nlbuf_invariant.1 [[97, 10], [13]] 2 (by decide), ?_⟩
  have h := (c5_nlbuf_invariant.2 ⟨[13], [97]⟩ [10, 98, 10] 1 (by decide)).1
  simpa using h

/-- Witness for C6 at the input "a\n\n" in two chunks. -/
theorem c6_witness :
    (stateAfter [[97, 10], [10]] 2).nlbuf.length ≤ longestNlRun [97, 10, 10] := by
  have h := c6_nlbuf_bounded [[97, 10], [10]] 2 (by decide)
  simpa using h

/-- Witness for C7: a run with no failures returns success, and a run whose
first read fails with error 5 surfaces exactly 5 as the last event. -/
theorem c7_witness :
    (snickerdoodleRun (E := Nat) [Except.ok [97]] [] none).2 = Except.ok () ∧
    (∃ tr ev, (snickerdoodleRun (E := Nat) [Except.error 5] [] none).1 = tr ++ [ev] ∧
      errOf ev = some 5 ∧ ∀ x ∈ tr, errOf x = none) := by
  constructor
  · exact (c7_error_propagation Nat [Except.ok [97]] [] none).1
      (fun r hr e => by
        rcases List.mem_singleton.mp hr with rfl
        exact fun hc => Except.noConfusion hc)
      (fun w hw => absurd hw (List.not_mem_nil w)) rfl
  · exact (c7_error_propagation Nat [Except.error 5] [] none).2 5 rfl

/-- Witness for C8 at the input "a\n" delivered as one chunk. -/
theorem c8_witness :
    ∃ tr, (snickerdoodleRun (E := Nat) [Except.ok [97, 10]] [] none).1 =
      tr ++ [Ev.flushOk] ∧ ∀ x ∈ tr, isFlush x = false :=
  c8_flush_once Nat [Except.ok [97, 10]] [] none rfl

/-- Witness for C9: reads after an empty chunk are ignored, the run through
the empty chunk succeeds, and its trace satisfies the consume discipline. -/
theorem c9_witness :
    snickerdoodleRun (E := Nat) [Except.ok [97], Except.ok [], Except.error 7] [] none =
      snickerdoodleRun (E := Nat) [Except.ok [97], Except.ok []] [] none ∧
    (snickerdoodleRun (E := Nat) [Except.ok [97], Except.ok []] [] none).2 =
      Except.ok () ∧
    consumeDiscipline none
      (snickerdoodleRun (E := Nat) [Except.ok [97], Except.ok []] [] none).1 = true := by
  refine ⟨?_, ?_, (c9_termination_consume Nat).2.2 [Except.ok [97], Except.ok []] [] none⟩
  · have h := (c9_termination_consume Nat).1 [Except.ok [97]] [Except.error 7] [] none
    simpa using h
  · have h := (c9_termination_consume Nat).2.1 [Except.ok [97]] []
      (fun r hr e => by
        rcases List.mem_singleton.mp hr with rfl
        exact fun hc => Except.noConfusion hc)
      (fun w hw => absurd hw (List.not_mem_nil w))
    simpa using h

/-- Witness for C10: the boundary equation after one chunk of "a\n", and the
written-prefix property against the stream "a\n\r". -/
theorem c10_witness :
    (stateAfter [[97, 10]] 1).out ++ (stateAfter [[97, 10]] 1).nlbuf = [97, 10] ∧
    trOut (snickerdoodleRun (E := Nat) [Except.ok [97, 10]] [] none).1 <+:
      trim [97, 10, 13] := by
  constructor
  · have h := c10_prefix_invariant.1 [[97, 10]] 1 (by decide)
    simpa using h
  · exact c10_prefix_invariant.2 Nat [Except.ok [97, 10]] [] none [97, 10, 13] (by decide)

example : snickOut [[97, 98, 99, 10]] = [97, 98, 99] := by decide
example : snickOut [[97], [10], [13, 10]] = [97] := by decide
example : snickOut [[10], [97], [10], [98], [10, 10]] = [10, 97, 10, 98] := by decide
example : trim [97, 98, 10, 13] = [97, 98] := by decide
example : longestNlRun [10, 97, 10, 10, 13, 98, 10] = 3 := by decide
example : (snickerdoodleRun (E := Nat) [Except.ok [97, 10]] [] none).2 =
    Except.ok () := rfl
example : trOut (snickerdoodleRun (E := Nat) [Except.ok [97, 10]] [] none).1 =
    [97] := by decide

end Nln
